import Mathlib

/-!
# Verification of the cuid1 fingerprint core (`crates/cuid1/src/cuid1/fingerprint.rs`)

Shallow embedding of the fingerprint module of `cuid-rust`:

* bytes are `Nat` values `< 256`; byte strings are `List Nat`;
* Rust `String` values produced here are ASCII only and are modeled as `List Char`;
* the SHA3-512 digest (`sha3::Sha3_512`) is embedded as a Keccak sponge over
  25 lanes of 64 bits, each lane a `Nat` reduced mod `2 ^ 64`;
* `num::bigint::BigUint::from_bytes_be` / `to_str_radix` are embedded as
  `fromBytesBE` / `toStrRadix`;
* the thread-local `FINGERPRINT` cache is embedded as explicit state passing of
  an `Option (List Char)` cache slot, one per thread.
-/

namespace Cuid1

-- ## Keccak-f[1600], the permutation underlying SHA3-512

/-- 64-bit left rotation of a lane value (`x < 2 ^ 64`). -/
def rotl64 (x n : Nat) : Nat :=
  ((x <<< (n % 64)) ||| (x >>> (64 - n % 64))) % (2 ^ 64)

/-- The 24 Keccak round constants (FIPS 202), in round order. -/
def keccakRC : List Nat := List.flatten
  [[0x0000000000000001, 0x0000000000008082, 0x800000000000808a],
   [0x8000000080008000, 0x000000000000808b, 0x0000000080000001],
   [0x8000000080008081, 0x8000000000008009, 0x000000000000008a],
   [0x0000000000000088, 0x0000000080008009, 0x000000008000000a],
   [0x000000008000808b, 0x800000000000008b, 0x8000000000008089],
   [0x8000000000008003, 0x8000000000008002, 0x8000000000000080],
   [0x000000000000800a, 0x800000008000000a, 0x8000000080008081],
   [0x8000000000008080, 0x0000000080000001, 0x8000000080008008]]

/-- Rotation offsets for the ρ step, indexed by lane index `x + 5 * y`,
one row (`y` fixed) per inner list. -/
def keccakRot : List Nat := List.flatten
  [[0, 1, 62, 28, 27],
   [36, 44, 6, 55, 20],
   [3, 10, 43, 25, 39],
   [41, 45, 15, 21, 8],
   [18, 2, 61, 56, 14]]

/-- θ step: xor each lane with a parity function of two columns. -/
def keccakTheta (s : List Nat) : List Nat :=
  let c := (List.range 5).map fun x =>
    s.getD x 0 ^^^ s.getD (x + 5) 0 ^^^ s.getD (x + 10) 0 ^^^
      s.getD (x + 15) 0 ^^^ s.getD (x + 20) 0
  let d := (List.range 5).map fun x =>
    c.getD ((x + 4) % 5) 0 ^^^ rotl64 (c.getD ((x + 1) % 5) 0) 1
  (List.range 25).map fun i => s.getD i 0 ^^^ d.getD (i % 5) 0

/-- ρ and π steps: rotate each lane and permute lane positions.
Output lane `(X, Y)` is the rotation of input lane `(x, y)` with
`y = X` and `x = (X + 3 * Y) % 5`. -/
def keccakRhoPi (s : List Nat) : List Nat :=
  (List.range 25).map fun j =>
    let X := j % 5
    let Y := j / 5
    let i := (X + 3 * Y) % 5 + 5 * X
    rotl64 (s.getD i 0) (keccakRot.getD i 0)

/-- χ step: nonlinear mix along rows. -/
def keccakChi (b : List Nat) : List Nat :=
  (List.range 25).map fun j =>
    let X := j % 5
    let Y := j / 5
    b.getD j 0 ^^^
      ((b.getD ((X + 1) % 5 + 5 * Y) 0 ^^^ 0xFFFFFFFFFFFFFFFF) &&&
        b.getD ((X + 2) % 5 + 5 * Y) 0)

/-- ι step: xor the round constant into lane 0. -/
def keccakIota (rc : Nat) (s : List Nat) : List Nat :=
  (List.range 25).map fun j => if j = 0 then s.getD 0 0 ^^^ rc else s.getD j 0

/-- One Keccak round. -/
def keccakRound (s : List Nat) (rc : Nat) : List Nat :=
  keccakIota rc (keccakChi (keccakRhoPi (keccakTheta s)))

/-- The full Keccak-f[1600] permutation: 24 rounds. -/
def keccakF (s : List Nat) : List Nat :=
  keccakRC.foldl keccakRound s

-- ## SHA3-512 sponge (rate 72 bytes, output 64 bytes)

/-- Interpret up to 8 bytes, little-endian, as one 64-bit lane value. -/
def bytesToLaneLE (bs : List Nat) : Nat :=
  bs.foldr (fun b acc => b + 256 * acc) 0

/-- Absorb one full 72-byte rate block: xor it into the first 9 lanes
(little-endian within each lane) and run the permutation. -/
def absorbBlock (s : List Nat) (block : List Nat) : List Nat :=
  keccakF <| (List.range 25).map fun i =>
    s.getD i 0 ^^^ (if i < 9 then bytesToLaneLE ((block.drop (8 * i)).take 8) else 0)

/-- The streaming hasher state behind `sha3::Sha3_512`: the 25 sponge lanes
plus a partial input buffer of fewer than 72 bytes. -/
structure Sha3_512State where
  lanes : List Nat
  buffer : List Nat
deriving Repr, DecidableEq

/-- `Sha3_512::new()`: all-zero sponge, empty buffer. -/
def Sha3_512.new : Sha3_512State :=
  ⟨List.replicate 25 0, []⟩

/-- Feed a single byte to the hasher, absorbing a block once 72 bytes
have accumulated. -/
def absorbByte (h : Sha3_512State) (b : Nat) : Sha3_512State :=
  let buf := h.buffer ++ [b]
  if buf.length = 72 then ⟨absorbBlock h.lanes buf, []⟩ else ⟨h.lanes, buf⟩

/-- `hasher.update(block)`: streaming absorption, byte by byte. -/
def Sha3_512State.update (h : Sha3_512State) (input : List Nat) : Sha3_512State :=
  input.foldl absorbByte h

/-- `hasher.finalize()`: apply the SHA3 multi-rate padding `0x06 … 0x80` to the
pending buffer, absorb the final block and squeeze the first 64 bytes
(512 bits) out of the sponge, little-endian within each lane. -/
def Sha3_512State.finalize (h : Sha3_512State) : List Nat :=
  let r := h.buffer.length
  let padded :=
    if r = 71 then h.buffer ++ [0x86]
    else h.buffer ++ [0x06] ++ List.replicate (70 - r) 0 ++ [0x80]
  let s := absorbBlock h.lanes padded
  (List.range 64).map fun i => (s.getD (i / 8) 0 >>> (8 * (i % 8))) % 256

/-- One-shot SHA3-512 of a byte string. -/
def sha3_512 (m : List Nat) : List Nat :=
  Sha3_512State.finalize (Sha3_512.new.update m)

-- ## Configuration constants

/-- Modelled from the spec: the output alphabet radix `BASE`, a configuration
constant consumed from the crate root (not part of this module's source);
the spec fixes it as the base-36 alphabet (radix 36, digits then lowercase
letters). -/
def BASE : Nat := 36

/-- `const BIG_LENGTH: u8 = 4`. -/
def BIG_LENGTH : Nat := 4

-- ## BigUint embedding: big-endian byte decoding and radix conversion

/-- `BigUint::from_bytes_be`: interpret a byte string as a big-endian
unsigned integer. -/
def fromBytesBE (bs : List Nat) : Nat :=
  bs.foldl (fun acc b => acc * 256 + b) 0

/-- One radix-`BASE` digit as a character: `0`–`9` then lowercase `a`–`z`,
as produced by `BigUint::to_str_radix`. -/
def digitChar36 (d : Nat) : Char :=
  if d < 10 then Char.ofNat (48 + d) else Char.ofNat (87 + d)

/-- Digits of `n` in radix `BASE`, least significant first; `fuel` bounds the
recursion depth and is irrelevant as soon as `n ≤ fuel`. -/
def toDigitsRevAux (fuel n : Nat) : List Nat :=
  match fuel with
  | 0 => []
  | f + 1 => if n = 0 then [] else n % BASE :: toDigitsRevAux f (n / BASE)

/-- `BigUint::to_str_radix(36)`: the radix-36 representation of `n`, most
significant digit first, no leading zeros, `"0"` for zero.  The Rust `String`
is modeled as its list of characters. -/
def toStrRadix (n : Nat) : List Char :=
  if n = 0 then ['0'] else ((toDigitsRevAux n n).reverse).map digitChar36

-- ## `hash` (fingerprint.rs lines 75–98)

/-- `fn hash<S, T>(input: T, length: u16) -> String`: feed every block into a
SHA3-512 hasher, interpret the digest as a big-endian `BigUint`, convert to
radix `BASE`, and `String::truncate` to the first `length` characters
(`truncate` is a no-op when the string is already at most that long). -/
def hash (input : List (List Nat)) (length : Nat) : List Char :=
  let hasher := input.foldl (fun h block => h.update block) Sha3_512.new
  let digest := hasher.finalize
  let res := toStrRadix (fromBytesBE digest)
  res.take length

-- ## Thread-local fingerprint (fingerprint.rs lines 21–56 and 100–103)

/-- The ambient per-thread quantities the fingerprint seed is built from:
two draws of `thread_rng().gen::<u128>()`, `std::process::id()` (a `u32`),
and the `DefaultHasher` 64-bit hash of the current thread's id computed by
`get_thread_id`. -/
structure ThreadCtx where
  r1 : Nat
  r2 : Nat
  pid : Nat
  tidHash : Nat
deriving Repr, DecidableEq

/-- `u128::to_be_bytes` and friends: `w` bytes of `n`, big-endian. -/
def toBeBytes (w n : Nat) : List Nat :=
  match w with
  | 0 => []
  | w + 1 => toBeBytes w (n / 256) ++ [n % 256]

/-- The four seed blocks passed to `hash` by the `FINGERPRINT` initializer:
`[r1.to_be_bytes(), r2.to_be_bytes(), u128::from(pid).to_be_bytes(),
u128::from(tid_hash).to_be_bytes()]`. -/
def seedBlocks (c : ThreadCtx) : List (List Nat) :=
  [toBeBytes 16 c.r1, toBeBytes 16 c.r2, toBeBytes 16 c.pid, toBeBytes 16 c.tidHash]

/-- The value the thread-local `FINGERPRINT` is initialized to:
`hash(seed blocks, BIG_LENGTH)`. -/
def fingerprintValue (c : ThreadCtx) : List Char :=
  hash (seedBlocks c) BIG_LENGTH

/-- `get_fingerprint()` together with the thread-local cell's lazy
initialization: the cache slot (`none` before first access) is threaded
explicitly; the first access computes and stores `fingerprintValue`,
later accesses return the stored value unchanged. -/
def get_fingerprint (c : ThreadCtx) (cache : Option (List Char)) :
    List Char × Option (List Char) :=
  match cache with
  | some v => (v, some v)
  | none => (fingerprintValue c, some (fingerprintValue c))

/-- Modelled from the spec: the error type `CuidError` lives in the crate's
`error` module, outside this source file; the spec's taxonomy names an
encoding-length error and fatal environment errors. -/
inductive CuidError where
  | encodingLengthError
  | environmentError
deriving Repr, DecidableEq

/-- `pub fn fingerprint() -> Result<String, CuidError>`: reads the
thread-local fingerprint and wraps it in `Ok`. -/
def fingerprint (c : ThreadCtx) (cache : Option (List Char)) :
    Except CuidError (List Char) × Option (List Char) :=
  let (v, cache') := get_fingerprint c cache
  (Except.ok v, cache')

-- ## Derived quantities used to state the claims

/-- The digest value of a `hash` call: the SHA3-512 digest of the
concatenated input blocks, read as a big-endian unsigned integer. -/
def digestNat (input : List (List Nat)) : Nat :=
  fromBytesBE (sha3_512 input.flatten)

/-- The number of radix-`BASE` digits obtainable from the digest of the given
input blocks: the length of the full converted string. -/
def maxDigits (input : List (List Nat)) : Nat :=
  (toStrRadix (digestNat input)).length

/-- The base-36 alphabet of `BigUint::to_str_radix(36)`. -/
def base36Alphabet : List Char :=
  "0123456789abcdefghijklmnopqrstuvwxyz".toList

/-- Numeric value of one base-36 digit character. -/
def charVal36 (c : Char) : Nat :=
  if c.toNat ≤ 57 then c.toNat - 48 else c.toNat - 87

/-- Value of a base-36 string read most-significant digit first. -/
def evalBase36 (cs : List Char) : Nat :=
  cs.foldl (fun acc c => acc * BASE + charVal36 c) 0

-- ## Supporting lemmas: streaming absorption equals one-shot absorption

theorem Sha3_512State.update_append (h : Sha3_512State) (a b : List Nat) :
    h.update (a ++ b) = (h.update a).update b := by
  simp [Sha3_512State.update, List.foldl_append]

theorem foldl_update_eq_update_join (blocks : List (List Nat)) (h : Sha3_512State) :
    blocks.foldl (fun h block => h.update block) h = h.update blocks.flatten := by
  induction blocks generalizing h with
  | nil => simp [Sha3_512State.update]
  | cons a as ih =>
      simp only [List.foldl_cons, List.flatten_cons, Sha3_512State.update_append]
      exact ih (h.update a)

/-- `hash` equals the one-shot pipeline: SHA3-512 of the concatenation of the
blocks, big-endian decoding, radix-36 conversion, prefix of `length`. -/
theorem hash_eq_pipeline (input : List (List Nat)) (length : Nat) :
    hash input length = (toStrRadix (digestNat input)).take length := by
  unfold hash digestNat sha3_512
  rw [foldl_update_eq_update_join]

-- ## Supporting lemmas: radix conversion

theorem toDigitsRevAux_zero (fuel : Nat) : toDigitsRevAux fuel 0 = [] := by
  cases fuel <;> simp [toDigitsRevAux]

theorem toDigitsRevAux_digit_lt (fuel : Nat) :
    ∀ n d, d ∈ toDigitsRevAux fuel n → d < BASE := by
  induction fuel with
  | zero => intro n d hd; simp [toDigitsRevAux] at hd
  | succ f ih =>
      intro n d hd
      by_cases hn : n = 0
      · simp [toDigitsRevAux, hn] at hd
      · simp only [toDigitsRevAux, if_neg hn, List.mem_cons] at hd
        rcases hd with hd | hd
        · subst hd; exact Nat.mod_lt _ (by decide)
        · exact ih _ _ hd

theorem toDigitsRevAux_length_le (fuel : Nat) :
    ∀ n k, n ≤ fuel → n < BASE ^ k → (toDigitsRevAux fuel n).length ≤ k := by
  induction fuel with
  | zero => intro n k hf hk; interval_cases n; simp [toDigitsRevAux]
  | succ f ih =>
      intro n k hf hk
      by_cases hn : n = 0
      · simp [hn, toDigitsRevAux_zero]
      · cases k with
        | zero =>
            have hz : n = 0 := by simpa [Nat.lt_one_iff] using hk
            exact absurd hz hn
        | succ m =>
            simp only [toDigitsRevAux, if_neg hn, List.length_cons]
            have hdiv : n / BASE ≤ f := by
              have h1 : n / BASE < n := Nat.div_lt_self (Nat.pos_of_ne_zero hn) (by decide)
              omega
            have h2 : n / BASE < BASE ^ m := by
              rw [Nat.div_lt_iff_lt_mul (by decide : 0 < BASE)]
              calc n < BASE ^ (m + 1) := hk
                _ = BASE ^ m * BASE := by rw [Nat.pow_succ]
            exact Nat.succ_le_succ (ih _ _ hdiv h2)

theorem toDigitsRevAux_value (fuel : Nat) :
    ∀ n, n ≤ fuel →
      (toDigitsRevAux fuel n).foldr (fun d acc => acc * BASE + d) 0 = n := by
  induction fuel with
  | zero => intro n hf; interval_cases n; simp [toDigitsRevAux]
  | succ f ih =>
      intro n hf
      by_cases hn : n = 0
      · simp [hn, toDigitsRevAux_zero]
      · simp only [toDigitsRevAux, if_neg hn, List.foldr_cons]
        have hdiv : n / BASE ≤ f := by
          have h1 : n / BASE < n := Nat.div_lt_self (Nat.pos_of_ne_zero hn) (by decide)
          omega
        rw [ih _ hdiv]
        simp only [BASE]
        omega

theorem toStrRadix_zero : toStrRadix 0 = ['0'] := rfl

theorem toStrRadix_length_pos (n : Nat) : 1 ≤ (toStrRadix n).length := by
  unfold toStrRadix
  by_cases hn : n = 0
  · simp [hn]
  · obtain ⟨m, rfl⟩ := Nat.exists_eq_succ_of_ne_zero hn
    simp [toDigitsRevAux, hn]

theorem toStrRadix_length_le (n k : Nat) (hn : n < BASE ^ k) (hk : 1 ≤ k) :
    (toStrRadix n).length ≤ k := by
  unfold toStrRadix
  by_cases h0 : n = 0
  · simpa [h0] using hk
  · simp only [if_neg h0, List.length_map, List.length_reverse]
    exact toDigitsRevAux_length_le n n k (Nat.le_refl n) hn

theorem digitChar36_mem_alphabet : ∀ d, d < BASE → digitChar36 d ∈ base36Alphabet := by
  decide

theorem toStrRadix_mem_alphabet (n : Nat) :
    ∀ c ∈ toStrRadix n, c ∈ base36Alphabet := by
  intro c hc
  unfold toStrRadix at hc
  by_cases h0 : n = 0
  · simp [h0] at hc
    subst hc; decide
  · simp only [if_neg h0, List.mem_map, List.mem_reverse] at hc
    obtain ⟨d, hd, rfl⟩ := hc
    exact digitChar36_mem_alphabet d (toDigitsRevAux_digit_lt n n d hd)

theorem base36Alphabet_ascii : ∀ c ∈ base36Alphabet, c.toNat < 128 := by
  decide

theorem charVal36_digitChar36 : ∀ d, d < BASE → charVal36 (digitChar36 d) = d := by
  decide

theorem foldr_digits_eval (l : List Nat) (hl : ∀ d ∈ l, d < BASE) :
    evalBase36 (l.reverse.map digitChar36) =
      l.foldr (fun d acc => acc * BASE + d) 0 := by
  unfold evalBase36
  rw [List.map_reverse, List.foldl_reverse, List.foldr_map]
  induction l with
  | nil => rfl
  | cons d ds ih =>
      simp only [List.foldr_cons]
      rw [ih (fun x hx => hl x (List.mem_cons_of_mem d hx)),
        charVal36_digitChar36 d (hl d (List.mem_cons_self d ds))]

/-- The radix conversion is value-faithful: reading the converted string back,
most-significant digit first, recovers the integer (in particular the first
character is present, not dropped). -/
theorem evalBase36_toStrRadix (n : Nat) : evalBase36 (toStrRadix n) = n := by
  unfold toStrRadix
  by_cases h0 : n = 0
  · simp [h0]; rfl
  · rw [if_neg h0,
      foldr_digits_eval (toDigitsRevAux n n) (toDigitsRevAux_digit_lt n n),
      toDigitsRevAux_value n n (Nat.le_refl n)]

-- ## Supporting lemmas: big-endian serialization

theorem toBeBytes_length (w : Nat) : ∀ n, (toBeBytes w n).length = w := by
  induction w with
  | zero => intro n; rfl
  | succ v ih => intro n; simp [toBeBytes, ih]

theorem fromBytesBE_append_byte (l : List Nat) (b : Nat) :
    fromBytesBE (l ++ [b]) = fromBytesBE l * 256 + b := by
  simp [fromBytesBE, List.foldl_append]

theorem fromBytesBE_toBeBytes (w : Nat) :
    ∀ n, n < 256 ^ w → fromBytesBE (toBeBytes w n) = n := by
  induction w with
  | zero =>
      intro n hn
      interval_cases n
      rfl
  | succ v ih =>
      intro n hn
      have hdiv : n / 256 < 256 ^ v := by
        rw [Nat.div_lt_iff_lt_mul (by norm_num : (0:Nat) < 256)]
        calc n < 256 ^ (v + 1) := hn
          _ = 256 ^ v * 256 := by rw [Nat.pow_succ]
      simp only [toBeBytes, fromBytesBE_append_byte, ih _ hdiv]
      omega

theorem toBeBytes_zero (w : Nat) : toBeBytes w 0 = List.replicate w 0 := by
  induction w with
  | zero => rfl
  | succ v ih => simp [toBeBytes, ih, List.replicate_succ']

theorem toBeBytes_zero_extend (w k : Nat) :
    ∀ n, k ≤ w → n < 256 ^ k →
      toBeBytes w n = List.replicate (w - k) 0 ++ toBeBytes k n := by
  induction w generalizing k with
  | zero =>
      intro n hk hn
      interval_cases k
      simp
  | succ v ih =>
      intro n hk hn
      cases k with
      | zero =>
          have hz : n = 0 := by simpa [Nat.lt_one_iff] using hn
          simp [hz, toBeBytes_zero]
      | succ m =>
          have hdiv : n / 256 < 256 ^ m := by
            rw [Nat.div_lt_iff_lt_mul (by norm_num : (0:Nat) < 256)]
            calc n < 256 ^ (m + 1) := hn
              _ = 256 ^ m * 256 := by rw [Nat.pow_succ]
          have hm : m ≤ v := Nat.lt_succ_iff.mp hk
          show toBeBytes v (n / 256) ++ [n % 256] = _
          rw [ih m (n / 256) hm hdiv]
          simp only [Nat.succ_sub_succ]
          rw [List.append_assoc]
          rfl

-- ## Supporting lemmas: hash output shape

theorem hash_length_eq (blocks : List (List Nat)) (L : Nat)
    (h : L ≤ maxDigits blocks) : (hash blocks L).length = L := by
  rw [hash_eq_pipeline, List.length_take]
  exact Nat.min_eq_left h

theorem hash_length_le (blocks : List (List Nat)) (L : Nat) :
    (hash blocks L).length ≤ L := by
  rw [hash_eq_pipeline, List.length_take]
  exact Nat.min_le_left _ _

theorem hash_mem_alphabet (blocks : List (List Nat)) (L : Nat) :
    ∀ c ∈ hash blocks L, c ∈ base36Alphabet := by
  intro c hc
  rw [hash_eq_pipeline] at hc
  exact toStrRadix_mem_alphabet _ c (List.take_subset _ _ hc)

theorem fromBytesBE_lt_aux (bs : List Nat) :
    ∀ acc, (∀ b ∈ bs, b < 256) →
      bs.foldl (fun acc b => acc * 256 + b) acc < 256 ^ bs.length * (acc + 1) := by
  induction bs with
  | nil => intro acc _; simp [Nat.lt_succ_self]
  | cons b bs ih =>
      intro acc h
      have hb : b < 256 := h b (List.mem_cons_self b bs)
      have hrest : ∀ x ∈ bs, x < 256 := fun x hx => h x (List.mem_cons_of_mem b hx)
      calc (b :: bs).foldl (fun acc b => acc * 256 + b) acc
          = bs.foldl (fun acc b => acc * 256 + b) (acc * 256 + b) := by
            simp [List.foldl_cons]
        _ < 256 ^ bs.length * (acc * 256 + b + 1) := ih _ hrest
        _ ≤ 256 ^ bs.length * (acc * 256 + 256) := by
            exact Nat.mul_le_mul_left _ (by omega)
        _ = 256 ^ (bs.length + 1) * (acc + 1) := by ring
        _ = 256 ^ (b :: bs).length * (acc + 1) := by simp

theorem fromBytesBE_lt (bs : List Nat) (h : ∀ b ∈ bs, b < 256) :
    fromBytesBE bs < 256 ^ bs.length := by
  simpa [fromBytesBE] using fromBytesBE_lt_aux bs 0 h

theorem sha3_512_length (m : List Nat) : (sha3_512 m).length = 64 := by
  simp [sha3_512, Sha3_512State.finalize]

theorem sha3_512_byte_lt (m : List Nat) : ∀ b ∈ sha3_512 m, b < 256 := by
  intro b hb
  simp only [sha3_512, Sha3_512State.finalize, List.mem_map] at hb
  obtain ⟨i, _, rfl⟩ := hb
  exact Nat.mod_lt _ (by norm_num)

/-- The digest value fits in 512 bits. -/
theorem digestNat_lt (input : List (List Nat)) : digestNat input < 2 ^ 512 := by
  have h := fromBytesBE_lt (sha3_512 input.flatten) (sha3_512_byte_lt _)
  rw [sha3_512_length] at h
  calc digestNat input < 256 ^ 64 := h
    _ = 2 ^ 512 := by norm_num

/-- A 512-bit digest yields at most 100 radix-36 digits. -/
theorem maxDigits_le_100 (input : List (List Nat)) : maxDigits input ≤ 100 := by
  exact toStrRadix_length_le _ 100
    (lt_of_lt_of_le (digestNat_lt input) (by norm_num [BASE])) (by norm_num)

-- ## Claim theorems

/-- C2: for every input collection of byte blocks and every target length `L`
with `L` at most the number of radix-`BASE` digits obtainable from the digest,
`hash blocks L` returns a string of exactly `L` characters, every character of
which belongs to the radix-36 alphabet. -/
theorem hash_exact_length_and_alphabet (blocks : List (List Nat)) (L : Nat)
    (hL : L ≤ maxDigits blocks) :
    (hash blocks L).length = L ∧ ∀ c ∈ hash blocks L, c ∈ base36Alphabet :=
  ⟨hash_length_eq blocks L hL, hash_mem_alphabet blocks L⟩

set_option maxRecDepth 40000 in
/-- Witness for C2: the block list `[[0]]` at length 4: the digest supplies
99 digits, and `hash` returns 4 alphabet characters. -/
theorem hash_exact_length_and_alphabet_witness :
    4 ≤ maxDigits [[0]] ∧
      ((hash [[0]] 4).length = 4 ∧ ∀ c ∈ hash [[0]] 4, c ∈ base36Alphabet) :=
  ⟨by decide, hash_exact_length_and_alphabet [[0]] 4 (by decide)⟩

/-- C3: `hash` is deterministic: two calls with identical block collections
and identical target lengths return identical strings (the embedding is a
pure function of its two arguments; it draws no randomness). -/
theorem hash_deterministic (b₁ b₂ : List (List Nat)) (L₁ L₂ : Nat)
    (hb : b₁ = b₂) (hL : L₁ = L₂) : hash b₁ L₁ = hash b₂ L₂ := by
  rw [hb, hL]

/-- Witness for C3 at the concrete input `[[0]]`, length 4. -/
theorem hash_deterministic_witness :
    ([[0]] : List (List Nat)) = [[0]] ∧ (4 : Nat) = 4 ∧
      hash [[0]] 4 = hash [[0]] 4 :=
  ⟨rfl, rfl, hash_deterministic [[0]] [[0]] 4 4 rfl rfl⟩

/-- C4: `hash blocks L` equals the pipeline: SHA3-512 over the blocks in
order, digest bytes read as one big-endian unsigned integer, conversion to
radix `BASE` most-significant digit first, and the leading prefix of `L`
characters.  The second conjunct shows the conversion is value-faithful
(reading the string back recovers the integer), so in particular the first
character is retained, not dropped. -/
theorem hash_pipeline_refinement (blocks : List (List Nat)) (L : Nat) :
    hash blocks L = (toStrRadix (digestNat blocks)).take L ∧
      evalBase36 (toStrRadix (digestNat blocks)) = digestNat blocks :=
  ⟨hash_eq_pipeline blocks L, evalBase36_toStrRadix _⟩

/-- C8: every character of the radix-converted digest string is a single-byte
ASCII symbol (code point below 128), so `String::truncate` at any character
count falls on a character boundary and cannot panic. -/
theorem radix_string_ascii (blocks : List (List Nat)) (c : Char)
    (hc : c ∈ toStrRadix (digestNat blocks)) : c.toNat < 128 :=
  base36Alphabet_ascii c (toStrRadix_mem_alphabet _ c hc)

set_option maxRecDepth 40000 in
/-- Witness for C8: the character `h` occurs in the converted digest string
of the block list `[[0]]` and is ASCII. -/
theorem radix_string_ascii_witness :
    'h' ∈ toStrRadix (digestNat [[0]]) ∧ 'h'.toNat < 128 :=
  ⟨by decide, radix_string_ascii [[0]] 'h' (by decide)⟩

set_option maxRecDepth 40000 in
/-- C1 counterexample: requesting 200 characters (more than the digest can
supply) from `hash` on the block list `[[0]]` does not fail: the embedded
`hash`, like the Rust function (whose return type is `String`, not
`Result`), returns the whole 99-character converted string. -/
theorem hash_no_length_error_cex :
    hash [[0]] 200 = toStrRadix (digestNat [[0]]) ∧
      (hash [[0]] 200).length = 99 :=
  ⟨by decide, by decide⟩

/-- C1 (amended): when the requested length exceeds the number of radix-36
digits obtainable from the digest, `hash` returns the entire converted
string — a string shorter than requested — with no padding and no error. -/
theorem hash_overlong_returns_whole_string (blocks : List (List Nat)) (L : Nat)
    (h : maxDigits blocks < L) :
    hash blocks L = toStrRadix (digestNat blocks) ∧ (hash blocks L).length < L := by
  have he : hash blocks L = toStrRadix (digestNat blocks) := by
    rw [hash_eq_pipeline]
    exact List.take_of_length_le (Nat.le_of_lt h)
  exact ⟨he, by rw [he]; exact h⟩

set_option maxRecDepth 40000 in
/-- Witness for the amended C1: the block list `[[0]]` at length 200. -/
theorem hash_overlong_returns_whole_string_witness :
    maxDigits [[0]] < 200 ∧
      (hash [[0]] 200 = toStrRadix (digestNat [[0]]) ∧
        (hash [[0]] 200).length < 200) :=
  ⟨by decide, hash_overlong_returns_whole_string [[0]] 200 (by decide)⟩

/-- C10: for every target length strictly greater than the number of radix-36
digits of the digest value, `hash` returns the entire converted string
unchanged — no padding, no error value, no panic — so its length is exactly
the digit count. -/
theorem hash_truncate_noop_when_short (blocks : List (List Nat)) (L : Nat)
    (h : maxDigits blocks < L) :
    hash blocks L = toStrRadix (digestNat blocks) ∧
      (hash blocks L).length = maxDigits blocks := by
  have he : hash blocks L = toStrRadix (digestNat blocks) := by
    rw [hash_eq_pipeline]
    exact List.take_of_length_le (Nat.le_of_lt h)
  exact ⟨he, by rw [he]; rfl⟩

set_option maxRecDepth 40000 in
/-- Witness for C10: the block list `[[1]]` at length 101. -/
theorem hash_truncate_noop_when_short_witness :
    maxDigits [[1]] < 101 ∧
      (hash [[1]] 101 = toStrRadix (digestNat [[1]]) ∧
        (hash [[1]] 101).length = maxDigits [[1]]) :=
  ⟨by decide, hash_truncate_noop_when_short [[1]] 101 (by decide)⟩

/-- C5: within one thread the fingerprint is computed once on first access
and cached: after any call the cache slot holds exactly the returned value, a
second call returns the same value and leaves the slot unchanged, and the
first access stores the `hash`-derived `fingerprintValue`. -/
theorem fingerprint_cache_stable (c : ThreadCtx) (cache : Option (List Char)) :
    (get_fingerprint c cache).2 = some ((get_fingerprint c cache).1) ∧
    (get_fingerprint c ((get_fingerprint c cache).2)).1 = (get_fingerprint c cache).1 ∧
    (get_fingerprint c ((get_fingerprint c cache).2)).2 = (get_fingerprint c cache).2 ∧
    (get_fingerprint c none).1 = fingerprintValue c := by
  cases cache <;> simp [get_fingerprint]

/-- C9: every invocation of `fingerprint()`, the first on a thread included,
returns the cached fingerprint wrapped in `Ok`; no code path produces an
error value. -/
theorem fingerprint_always_ok (c : ThreadCtx) (cache : Option (List Char)) :
    (fingerprint c cache).1 = Except.ok ((get_fingerprint c cache).1) ∧
    (fingerprint c cache).2 = (get_fingerprint c cache).2 := by
  cases cache <;> simp [fingerprint, get_fingerprint]

/-- C7: the per-thread seed passed to `hash` consists of exactly four
16-byte (128-bit) big-endian blocks: the two random 128-bit draws, the
process id zero-extended from 32 to 128 bits, and the 64-bit thread-identity
hash zero-extended to 128 bits; decoding each block big-endian recovers the
original value. -/
theorem seed_composition (c : ThreadCtx)
    (h1 : c.r1 < 2 ^ 128) (h2 : c.r2 < 2 ^ 128)
    (hp : c.pid < 2 ^ 32) (ht : c.tidHash < 2 ^ 64) :
    (seedBlocks c).length = 4 ∧
    (∀ b ∈ seedBlocks c, b.length = 16) ∧
    seedBlocks c =
      [toBeBytes 16 c.r1, toBeBytes 16 c.r2,
       List.replicate 12 0 ++ toBeBytes 4 c.pid,
       List.replicate 8 0 ++ toBeBytes 8 c.tidHash] ∧
    fromBytesBE (toBeBytes 16 c.r1) = c.r1 ∧
    fromBytesBE (toBeBytes 16 c.r2) = c.r2 ∧
    fromBytesBE (toBeBytes 16 c.pid) = c.pid ∧
    fromBytesBE (toBeBytes 16 c.tidHash) = c.tidHash := by
  have e16 : (256 : Nat) ^ 16 = 2 ^ 128 := by norm_num
  have e4 : (256 : Nat) ^ 4 = 2 ^ 32 := by norm_num
  have e8 : (256 : Nat) ^ 8 = 2 ^ 64 := by norm_num
  refine ⟨rfl, ?_, ?_, ?_, ?_, ?_, ?_⟩
  · intro b hb
    simp only [seedBlocks, List.mem_cons, List.not_mem_nil, or_false] at hb
    rcases hb with h | h | h | h <;> rw [h] <;> exact toBeBytes_length 16 _
  · unfold seedBlocks
    rw [toBeBytes_zero_extend 16 4 c.pid (by norm_num) (by rw [e4]; exact hp),
      toBeBytes_zero_extend 16 8 c.tidHash (by norm_num) (by rw [e8]; exact ht)]
  · exact fromBytesBE_toBeBytes 16 c.r1 (by rw [e16]; exact h1)
  · exact fromBytesBE_toBeBytes 16 c.r2 (by rw [e16]; exact h2)
  · exact fromBytesBE_toBeBytes 16 c.pid (by rw [e16]; exact lt_trans hp (by norm_num))
  · exact fromBytesBE_toBeBytes 16 c.tidHash (by rw [e16]; exact lt_trans ht (by norm_num))

/-- Witness for C7 at the concrete thread context `⟨1, 2, 3, 4⟩`. -/
theorem seed_composition_witness :
    (1 : Nat) < 2 ^ 128 ∧ (2 : Nat) < 2 ^ 128 ∧
    (3 : Nat) < 2 ^ 32 ∧ (4 : Nat) < 2 ^ 64 ∧
    ((seedBlocks ⟨1, 2, 3, 4⟩).length = 4 ∧
     (∀ b ∈ seedBlocks ⟨1, 2, 3, 4⟩, b.length = 16) ∧
     seedBlocks ⟨1, 2, 3, 4⟩ =
       [toBeBytes 16 1, toBeBytes 16 2,
        List.replicate 12 0 ++ toBeBytes 4 3,
        List.replicate 8 0 ++ toBeBytes 8 4] ∧
     fromBytesBE (toBeBytes 16 1) = 1 ∧
     fromBytesBE (toBeBytes 16 2) = 2 ∧
     fromBytesBE (toBeBytes 16 3) = 3 ∧
     fromBytesBE (toBeBytes 16 4) = 4) :=
  ⟨by decide, by decide, by decide, by decide,
    seed_composition ⟨1, 2, 3, 4⟩ (by decide) (by decide) (by decide) (by decide)⟩

-- ## Additional facts about the fingerprint length (context for the
-- `BIG_LENGTH` claim: equality holds exactly when the seed's digest
-- supplies at least `BIG_LENGTH` radix-36 digits)

theorem fingerprintValue_length_le (c : ThreadCtx) :
    (fingerprintValue c).length ≤ BIG_LENGTH :=
  hash_length_le _ _

theorem fingerprintValue_length_of_enough_digits (c : ThreadCtx)
    (h : BIG_LENGTH ≤ maxDigits (seedBlocks c)) :
    (fingerprintValue c).length = BIG_LENGTH :=
  hash_length_eq _ _ h

end Cuid1
